import Mathlib

/-!
Verification of the `filerune/rust` fusion package (Split / Check / Merge)
against its specification, by a shallow embedding of the three operations.

The embedding models the filesystem objects the three operations exchange:
a chunk directory is a finite listing of named entries, each entry being a
regular file (a byte list) or a non-file (directory).  Bytes are modelled
as `Nat`; only their count and identity matter to the algorithms.

OS-level failures that depend on state outside the data model (paths that
do not exist, unreadable metadata, raw I/O errors) are noted at each
definition; the claims under verification all concern runs in which those
probes succeed, which is what the embedding models.
-/

namespace Fusion

/-- A directory entry as the three operations observe it: either a regular
file with its byte content, or a non-file entry (subdirectory etc.). -/
inductive FsEntry where
  | file (content : List Nat)
  | dir
deriving DecidableEq, Repr

/-- A directory: a finite listing of (name, entry) pairs, in the order the
OS enumerates them. -/
abbrev Dir := List (String × FsEntry)

/-- Embeds `str::parse::<usize>` as applied to chunk filenames
(`merge.rs` line 266): a string of decimal digits evaluates to its base-10
value, anything else fails.  (Rust's `parse::<usize>` additionally accepts
a leading `+` and rejects values above `usize::MAX`; no chunk filename in
any claim exercises either corner, and chunk names written by Split are
plain digit strings.) -/
def parseIndex (s : String) : Option Nat :=
  if s.data ≠ [] ∧ s.data.all Char.isDigit then
    some (s.data.foldl (fun n c => n * 10 + (c.toNat - Char.toNat '0')) 0)
  else
    none

/-! ### Split (`split.rs`) -/

/-- Result of the split process (`split.rs` lines 50-55). -/
structure SplitResult where
  file_size : Nat
  total_chunks : Nat
deriving DecidableEq, Repr

/-- The chunking loop of `Split::run` (`split.rs` lines 260-294): each
iteration accumulates reads into a `chunk_size` buffer until the buffer is
full or the input is exhausted (on a regular file this yields
`min chunk_size remaining` bytes, i.e. `take chunkSize`), stops when an
iteration accumulates zero bytes, and otherwise emits the accumulated
bytes as the next chunk.  With `chunk_size = 0` the inner
`while offset < chunk_size` loop never runs, so the first iteration
accumulates zero bytes and no chunk is emitted. -/
def splitChunks (chunkSize : Nat) (content : List Nat) : List (List Nat) :=
  if h : chunkSize = 0 ∨ content = [] then []
  else
    content.take chunkSize :: splitChunks chunkSize (content.drop chunkSize)
termination_by content.length
decreasing_by
  push_neg at h
  have h1 : content.length ≠ 0 := fun hc => h.2 (List.eq_nil_of_length_eq_zero hc)
  simp only [List.length_drop]
  omega

/-- The chunk files written by the loop of `Split::run`: chunk number
`idx` is written to the file named `idx.to_string()` (`split.rs`
lines 275-289), and the counter increments by one per chunk. -/
def chunkEntries (chunks : List (List Nat)) (idx : Nat) : Dir :=
  match chunks with
  | [] => []
  | ch :: rest => (Nat.repr idx, FsEntry.file ch) :: chunkEntries rest (idx + 1)

/-- `Split::run` (`split.rs` lines 202-297) on an input file whose bytes
are `content`, with the given `chunk_size`: returns the `SplitResult` and
the chunk files created in the output directory.  The path preconditions
(`in_file` / `out_dir` set, existing, of the right kind, lines 203-238)
and raw I/O failures are OS-level probes outside the data model; the
embedding models the run in which they succeed.  `file_size` is taken
from the file metadata before chunking (lines 249-251). -/
def Split.run (chunkSize : Nat) (content : List Nat) : SplitResult × Dir :=
  let chunks := splitChunks chunkSize content
  (⟨content.length, chunks.length⟩, chunkEntries chunks 0)

/-! ### Merge (`merge.rs`) -/

/-- Merge process error enum (`merge.rs` lines 48-62). -/
inductive MergeError where
  | InDirNotFound
  | InDirNotDir
  | InDirNotSet
  | InDirNotRead
  | InDirNoFile
  | InFileNotOpened
  | InFileNotRead
  | OutDirNotCreated
  | OutFileNotSet
  | OutFileNotRemoved
  | OutFileNotOpened
  | OutFileNotWritten
deriving DecidableEq, Repr

/-- How a call to `Merge::run` ends: with a panic (an `unwrap` failing in
the sort step, `merge.rs` lines 260-268), with a typed error
(`Err(MergeError)`), or normally (`Ok(true)`, line 299). -/
inductive MergeOutcome where
  | panicked
  | error (e : MergeError)
  | ok (success : Bool)
deriving DecidableEq, Repr

/-- Observable result of a `Merge::run` call: how it ended, together with
the entry sitting at the output path when it ends (`none` would mean no
file; once `run` reaches the `open` on `merge.rs` line 233 an empty file
exists there). -/
structure MergeRun where
  outcome : MergeOutcome
  outFile : Option (List Nat)
deriving DecidableEq, Repr

/-- The input listing of `Merge::run` (`merge.rs` lines 245-254): keep the
entries that are regular files — subdirectories and other non-file
entries are filtered out, not reported — with their byte contents. -/
def dirFiles (d : Dir) : List (String × List Nat) :=
  d.filterMap fun e =>
    match e.2 with
    | FsEntry.file c => some (e.1, c)
    | FsEntry.dir => none

/-- The sort key of `Merge::run`
(`entry.file_name().unwrap().to_str().unwrap().parse::<usize>().unwrap()`,
`merge.rs` lines 260-268); the surrounding `run` only applies it after
checking every name parses, so the `getD` default is never reached there. -/
def chunkKey (e : String × List Nat) : Nat :=
  (parseIndex e.1).getD 0

/-- The sort step of `Merge::run` (`merge.rs` line 260): Rust's
`sort_by_key` is a stable sort by the key, here modelled by the stable
`List.insertionSort` on `chunkKey`. -/
def sortEntries (es : List (String × List Nat)) : List (String × List Nat) :=
  es.insertionSort fun a b => chunkKey a ≤ chunkKey b

/-- `Merge::run` (`merge.rs` lines 185-300).

* `pre` is the entry occupying the output path beforehand, removed
  (recursively for a directory) at lines 210-218 before the output file is
  created; removal and parent-directory creation succeed in the model.
* The output file is created/truncated (lines 233-238) *before* the input
  directory is listed (lines 245-254), so from that point the output path
  holds an empty file whatever `pre` was.
* `dirReadable` tells whether the `read_dir` call at line 247 succeeds;
  when it fails `run` returns `Err(InDirNotRead)` with the output already
  truncated.
* An empty listing fails with `Err(InDirNoFile)` (lines 256-258).
* The sort step unwraps the parse of every filename (lines 260-268): a
  name that is not a decimal numeral panics the thread instead of
  returning an error.  (Rust's sort may skip key extraction on a
  singleton slice; the sort step as written unwraps the key of whatever
  it examines, modelled as a panic whenever some listed name fails to
  parse.)
* The copy loop (lines 271-295) appends each sorted file's bytes to the
  output through a buffer, then flushes; per-file open/read I/O failures
  are OS-level events outside the data model.

The path preconditions on `in_dir` / `out_file` (set, existing, of the
right kind, lines 186-229) precede the output truncation and are modelled
as succeeding. -/
def Merge.run (pre : Option FsEntry) (dirReadable : Bool) (d : Dir) : MergeRun :=
  if ¬ dirReadable then
    ⟨MergeOutcome.error MergeError.InDirNotRead, some []⟩
  else
    let entries := dirFiles d
    if entries = [] then
      ⟨MergeOutcome.error MergeError.InDirNoFile, some []⟩
    else if entries.all fun e => (parseIndex e.1).isSome then
      let out := ((sortEntries entries).map Prod.snd).flatten
      ⟨MergeOutcome.ok true, some out⟩
    else
      ⟨MergeOutcome.panicked, some []⟩

/-! ### Check (`check.rs`) -/

/-- Error type of the result from the check process (`check.rs`
lines 33-39). -/
inductive CheckResultErrorType where
  | Missing
  | Size
deriving DecidableEq, Repr

/-- Error of the result from the check process (`check.rs` lines 66-74):
an error type, a message, and the missing chunk indices (only for the
`Missing` type).  These are all the fields the caller can read. -/
structure CheckResultError where
  error_type : CheckResultErrorType
  message : String
  missing : Option (List Nat)
deriving DecidableEq, Repr

/-- Result of the check process (`check.rs` lines 76-83). -/
structure CheckResult where
  success : Bool
  error : Option CheckResultError
deriving DecidableEq, Repr

/-- Check process operation-error enum (`check.rs` lines 85-94). -/
inductive CheckError where
  | InDirNotFound
  | InDirNotDir
  | InDirNotSet
  | InFileNotOpened
  | InFileNotRead
  | FileSizeNotSet
  | TotalChunksNotSet
deriving DecidableEq, Repr

/-- The check process configuration (`check.rs` lines 154-159).  `in_dir`
is the listing of the input directory when set (the exists / is-a-dir
probes at lines 206-213 are OS-level and modelled as passing for a set
directory). -/
structure Check where
  in_dir : Option Dir
  file_size : Option Nat
  total_chunks : Option Nat

/-- Opening the file named `i` in the input directory (`check.rs`
lines 230-239): the first entry of that name, if any. -/
def findEntry (d : Dir) (name : String) : Option FsEntry :=
  (d.find? fun e => e.1 = name).map fun e => e.2

/-- One iteration of the scan loop of `Check::run` (`check.rs`
lines 229-250) over the accumulator `(actual_size, missing)`: a regular
file named `i.to_string()` adds its length to `actual_size`; a missing or
non-file entry appends `i` to `missing`.  (A metadata read that fails at
the I/O level, line 242, aborts the whole run with
`CheckError::InFileNotRead`; that OS-level event is outside the data
model.) -/
def scanStep (d : Dir) (acc : Nat × List Nat) (i : Nat) : Nat × List Nat :=
  match findEntry d (Nat.repr i) with
  | some (FsEntry.file c) => (acc.1 + c.length, acc.2)
  | _ => (acc.1, acc.2 ++ [i])

/-- The scan loop of `Check::run` over `i in 0..total_chunks`. -/
def scanChunks (d : Dir) (total_chunks : Nat) : Nat × List Nat :=
  (List.range total_chunks).foldl (scanStep d) (0, [])

/-- `Check::run` (`check.rs` lines 200-277): after the scan, a non-empty
`missing` list yields the missing-chunks result (lines 252-261); only
then is `actual_size` compared with `file_size` (lines 263-274); otherwise
the check succeeds. -/
def Check.run (c : Check) : Except CheckError CheckResult :=
  match c.in_dir with
  | none => Except.error CheckError.InDirNotSet
  | some d =>
    match c.file_size with
    | none => Except.error CheckError.FileSizeNotSet
    | some file_size =>
      match c.total_chunks with
      | none => Except.error CheckError.TotalChunksNotSet
      | some total_chunks =>
        let scan := scanChunks d total_chunks
        if scan.2 ≠ [] then
          Except.ok ⟨false, some ⟨CheckResultErrorType.Missing, "Missing chunk(s)",
            some scan.2⟩⟩
        else if scan.1 ≠ file_size then
          Except.ok ⟨false, some ⟨CheckResultErrorType.Size,
            "the size of chunks is not equal to file_size parameter", none⟩⟩
        else
          Except.ok ⟨true, none⟩

/-! ### Spec-side predicates used to state the claims -/

/-- A readable regular file named `i.to_string()` exists in `d`. -/
def hasChunkFile (d : Dir) (i : Nat) : Bool :=
  match findEntry d (Nat.repr i) with
  | some (FsEntry.file _) => true
  | _ => false

/-- Byte length of the regular file named `i.to_string()` in `d` (0 when
absent). -/
def chunkSizeAt (d : Dir) (i : Nat) : Nat :=
  match findEntry d (Nat.repr i) with
  | some (FsEntry.file c) => c.length
  | _ => 0

/-- Deleting the entry named `name` from a directory. -/
def removeFile (d : Dir) (name : String) : Dir :=
  d.filter fun e => e.1 ≠ name

/-! ### Lemmas -/

/-! ### Decimal printing (`usize::to_string`, i.e. `Nat.repr`) round-trips
through `parseIndex`.  Split names chunk `i` by `i.to_string()`
(`split.rs` line 275) and Check probes `i.to_string()` (`check.rs`
line 230), so this is the bridge between the writers and the readers of
the chunk-naming convention. -/

theorem toDigitsCore_append (fuel n : Nat) (ds : List Char) :
    Nat.toDigitsCore 10 fuel n ds = Nat.toDigitsCore 10 fuel n [] ++ ds := by
  induction fuel generalizing n ds with
  | zero => simp [Nat.toDigitsCore]
  | succ fuel ih =>
    simp only [Nat.toDigitsCore]
    by_cases h : n / 10 = 0
    · simp [h]
    · simp only [if_neg h]
      rw [ih (n / 10) (Nat.digitChar (n % 10) :: ds),
        ih (n / 10) [Nat.digitChar (n % 10)], List.append_assoc]
      rfl

theorem toDigitsCore_fuel (fuel fuel' n : Nat) (h : n < fuel) (h' : n < fuel') :
    Nat.toDigitsCore 10 fuel n [] = Nat.toDigitsCore 10 fuel' n [] := by
  induction n using Nat.strong_induction_on generalizing fuel fuel' with
  | _ n ih =>
    match fuel, fuel' with
    | fuel + 1, fuel' + 1 =>
      simp only [Nat.toDigitsCore]
      by_cases h0 : n / 10 = 0
      · simp [h0]
      · simp only [if_neg h0]
        have hlt : n / 10 < n := Nat.div_lt_self (Nat.pos_of_ne_zero (by omega)) (by omega)
        rw [toDigitsCore_append fuel, toDigitsCore_append fuel',
          ih (n / 10) hlt fuel fuel' (by omega) (by omega)]

/-- For `n < 10` the printed digits are the single digit character. -/
theorem toDigits_lt_ten (n : Nat) (h : n < 10) :
    Nat.toDigits 10 n = [Nat.digitChar n] := by
  have h0 : n / 10 = 0 := Nat.div_eq_of_lt h
  simp [Nat.toDigits, Nat.toDigitsCore, h0, Nat.mod_eq_of_lt h]

/-- For `n ≥ 10` the printed digits are those of `n / 10` followed by the
last digit. -/
theorem toDigits_ge_ten (n : Nat) (h : 10 ≤ n) :
    Nat.toDigits 10 n = Nat.toDigits 10 (n / 10) ++ [Nat.digitChar (n % 10)] := by
  have h0 : n / 10 ≠ 0 := by
    have : 1 ≤ n / 10 := (Nat.le_div_iff_mul_le (by omega)).2 (by omega)
    omega
  have hlt : n / 10 < n := Nat.div_lt_self (by omega) (by omega)
  show Nat.toDigitsCore 10 (n + 1) n [] = _
  simp only [Nat.toDigitsCore, if_neg h0]
  rw [toDigitsCore_append, toDigitsCore_fuel n (n / 10 + 1) (n / 10) hlt (Nat.lt_succ_self _)]
  rfl

theorem digitChar_isDigit (d : Nat) (h : d < 10) : (Nat.digitChar d).isDigit = true := by
  interval_cases d <;> decide

theorem digitChar_val (d : Nat) (h : d < 10) :
    (Nat.digitChar d).toNat - Char.toNat '0' = d := by
  interval_cases d <;> decide

theorem toDigits_ne_nil (n : Nat) : Nat.toDigits 10 n ≠ [] := by
  by_cases h : n < 10
  · simp [toDigits_lt_ten n h]
  · simp [toDigits_ge_ten n (by omega)]

theorem toDigits_all_isDigit (n : Nat) :
    (Nat.toDigits 10 n).all Char.isDigit = true := by
  induction n using Nat.strong_induction_on with
  | _ n ih =>
    by_cases h : n < 10
    · simp [toDigits_lt_ten n h, digitChar_isDigit n h]
    · have hlt : n / 10 < n := Nat.div_lt_self (by omega) (by omega)
      simp only [toDigits_ge_ten n (by omega), List.all_append, List.all_cons, List.all_nil]
      simp [ih (n / 10) hlt, digitChar_isDigit (n % 10) (Nat.mod_lt n (by omega))]

theorem toDigits_foldl (n acc : Nat) :
    (Nat.toDigits 10 n).foldl (fun m c => m * 10 + (c.toNat - Char.toNat '0')) acc =
      acc * 10 ^ (Nat.toDigits 10 n).length + n := by
  induction n using Nat.strong_induction_on generalizing acc with
  | _ n ih =>
    by_cases h : n < 10
    · rw [toDigits_lt_ten n h]
      simp only [List.foldl_cons, List.foldl_nil, List.length_cons, List.length_nil]
      rw [digitChar_val n h]
      ring
    · have hlt : n / 10 < n := Nat.div_lt_self (by omega) (by omega)
      rw [toDigits_ge_ten n (by omega), List.foldl_append, ih (n / 10) hlt acc]
      simp only [List.foldl_cons, List.foldl_nil, List.length_append, List.length_cons,
        List.length_nil, digitChar_val (n % 10) (Nat.mod_lt n (by omega))]
      rw [pow_succ]
      have := Nat.div_add_mod n 10
      ring_nf
      omega

theorem repr_data (n : Nat) : (Nat.repr n).data = Nat.toDigits 10 n := rfl

/-- Printing a chunk index and parsing it back yields the index. -/
theorem parseIndex_repr (n : Nat) : parseIndex (Nat.repr n) = some n := by
  rw [parseIndex, if_pos]
  · rw [repr_data, toDigits_foldl n 0]
    simp
  · exact ⟨by rw [repr_data]; exact toDigits_ne_nil n,
      by rw [repr_data]; exact toDigits_all_isDigit n⟩

/-- Distinct chunk indices print to distinct names. -/
theorem repr_injective : Function.Injective Nat.repr := by
  intro m n h
  have := parseIndex_repr m
  rw [h, parseIndex_repr n] at this
  exact (Option.some_inj.mp this).symm


/-! ### The chunking loop, characterized -/

theorem splitChunks_nil (chunkSize : Nat) : splitChunks chunkSize [] = [] := by
  rw [splitChunks]
  simp

theorem splitChunks_zero (content : List Nat) : splitChunks 0 content = [] := by
  rw [splitChunks]
  simp

theorem splitChunks_cons (chunkSize : Nat) (content : List Nat)
    (hk : chunkSize ≠ 0) (hc : content ≠ []) :
    splitChunks chunkSize content =
      content.take chunkSize :: splitChunks chunkSize (content.drop chunkSize) := by
  rw [splitChunks]
  simp [hk, hc]

/-- Concatenating the chunks in emission order restores the input. -/
theorem splitChunks_flatten (chunkSize : Nat) (content : List Nat) (hk : chunkSize ≠ 0) :
    (splitChunks chunkSize content).flatten = content := by
  induction content using splitChunks.induct chunkSize with
  | case1 c h =>
    rcases h with h | h
    · exact absurd h hk
    · subst h
      simp [splitChunks_nil]
  | case2 c h ih =>
    push_neg at h
    rw [splitChunks_cons chunkSize c hk h.2]
    simp [ih]

/-- Bounds pinning down the chunk count: the emitted chunks cover the
input, and all but (at most) the last are full. -/
theorem splitChunks_length_bounds (chunkSize : Nat) (content : List Nat)
    (hk : chunkSize ≠ 0) (hc : content ≠ []) :
    ((splitChunks chunkSize content).length - 1) * chunkSize < content.length ∧
      content.length ≤ (splitChunks chunkSize content).length * chunkSize := by
  induction content using splitChunks.induct chunkSize with
  | case1 c h =>
    rcases h with h | h
    · exact absurd h hk
    · exact absurd h hc
  | case2 c h ih =>
    push_neg at h
    rw [splitChunks_cons chunkSize c hk h.2]
    by_cases hrest : c.drop chunkSize = []
    · have hlen : c.length ≤ chunkSize := by
        have := List.length_drop chunkSize c
        rw [hrest] at this
        simp at this
        omega
      have hpos : c.length ≠ 0 := fun h0 => h.2 (List.eq_nil_of_length_eq_zero h0)
      rw [hrest, splitChunks_nil]
      simp
      omega
    · obtain ⟨ih1, ih2⟩ := ih hrest
      have hdl : (c.drop chunkSize).length = c.length - chunkSize := List.length_drop ..
      have hne : (splitChunks chunkSize (c.drop chunkSize)).length ≠ 0 := by
        intro h0
        apply hrest
        have := splitChunks_flatten chunkSize (c.drop chunkSize) hk
        rw [List.length_eq_zero.mp h0] at this
        simpa using this.symm
      have hgt : chunkSize < c.length := by
        by_contra hle
        push_neg at hle
        exact hrest (List.drop_eq_nil_of_le hle)
      rw [hdl] at ih1 ih2
      obtain ⟨m, hm⟩ := Nat.exists_eq_succ_of_ne_zero hne
      rw [hm] at ih1 ih2
      simp only [List.length_cons, hm, Nat.succ_sub_one, Nat.succ_eq_add_one] at ih1 ih2 ⊢
      have e1 : (m + 1) * chunkSize = m * chunkSize + chunkSize := by ring
      have e2 : (m + 1 + 1) * chunkSize = m * chunkSize + chunkSize + chunkSize := by ring
      rw [e1] at ih2
      rw [e1, e2]
      omega

/-- Element-wise description of the emitted chunks: chunk `i` holds the
bytes of the input from offset `i * chunkSize`, at most `chunkSize` of
them.  (Out-of-range indices give the `getD` default `[]` on both sides.) -/
theorem splitChunks_getD (chunkSize : Nat) (content : List Nat) (i : Nat) :
    (splitChunks chunkSize content).getD i [] =
      (content.drop (i * chunkSize)).take chunkSize := by
  induction content using splitChunks.induct chunkSize generalizing i with
  | case1 c h =>
    rcases h with h | h
    · subst h
      simp [splitChunks_zero]
    · subst h
      simp [splitChunks_nil]
  | case2 c h ih =>
    push_neg at h
    rw [splitChunks_cons chunkSize c h.1 h.2]
    match i with
    | 0 => simp
    | i + 1 =>
      simp only [List.getD_cons_succ]
      rw [ih i, List.drop_drop]
      congr 1
      ring

/-! ### The scan loop of Check, characterized -/

theorem scanChunks_foldl (d : Dir) (l : List Nat) (s : Nat) (m : List Nat) :
    l.foldl (scanStep d) (s, m) =
      (s + ((l.filter fun i => hasChunkFile d i).map (chunkSizeAt d)).sum,
        m ++ (l.filter fun i => ¬ hasChunkFile d i)) := by
  induction l generalizing s m with
  | nil => simp
  | cons i l ih =>
    rw [List.foldl_cons]
    by_cases hc : hasChunkFile d i = true
    · obtain ⟨c, he⟩ : ∃ c, findEntry d (Nat.repr i) = some (FsEntry.file c) := by
        unfold hasChunkFile at hc
        match hx : findEntry d (Nat.repr i) with
        | some (FsEntry.file c) => exact ⟨c, rfl⟩
        | some FsEntry.dir => rw [hx] at hc; simp at hc
        | none => rw [hx] at hc; simp at hc
      have hstep : scanStep d (s, m) i = (s + c.length, m) := by
        unfold scanStep
        rw [he]
      have hsz : chunkSizeAt d i = c.length := by
        unfold chunkSizeAt
        rw [he]
      rw [hstep, ih (s + c.length) m]
      simp [List.filter_cons, hc, hsz, Nat.add_assoc]
    · have hstep : scanStep d (s, m) i = (s, m ++ [i]) := by
        unfold scanStep
        unfold hasChunkFile at hc
        match hx : findEntry d (Nat.repr i) with
        | some (FsEntry.file c) => rw [hx] at hc; simp at hc
        | some FsEntry.dir => rfl
        | none => rfl
      rw [hstep, ih s (m ++ [i])]
      simp [List.filter_cons, hc]

/-- The scan of `Check::run`: `actual_size` is the summed length of the
present chunks, `missing` is the ascending list of the expected indices
without a readable regular file. -/
theorem scanChunks_eq (d : Dir) (n : Nat) :
    scanChunks d n =
      ((((List.range n).filter fun i => hasChunkFile d i).map (chunkSizeAt d)).sum,
        (List.range n).filter fun i => ¬ hasChunkFile d i) := by
  unfold scanChunks
  rw [scanChunks_foldl d (List.range n) 0 []]
  simp

/-! ### The chunk directory written by Split, as seen by Merge and Check -/

theorem dirFiles_chunkEntries_cons (ch : List Nat) (rest : List (List Nat)) (idx : Nat) :
    dirFiles (chunkEntries (ch :: rest) idx) =
      (Nat.repr idx, ch) :: dirFiles (chunkEntries rest (idx + 1)) := by
  rfl

theorem chunkKey_ge (chunks : List (List Nat)) (idx : Nat) :
    ∀ e ∈ dirFiles (chunkEntries chunks idx), idx ≤ chunkKey e := by
  induction chunks generalizing idx with
  | nil => intro e he; simp [chunkEntries, dirFiles] at he
  | cons ch rest ih =>
    intro e he
    rw [dirFiles_chunkEntries_cons] at he
    rcases List.mem_cons.mp he with he | he
    · subst he
      simp [chunkKey, parseIndex_repr]
    · exact Nat.le_of_succ_le (ih (idx + 1) e he)

theorem sorted_chunkEntries (chunks : List (List Nat)) (idx : Nat) :
    List.Sorted (fun a b => chunkKey a ≤ chunkKey b)
      (dirFiles (chunkEntries chunks idx)) := by
  induction chunks generalizing idx with
  | nil => simp [chunkEntries, dirFiles]
  | cons ch rest ih =>
    rw [dirFiles_chunkEntries_cons, List.sorted_cons]
    refine ⟨fun b hb => ?_, ih (idx + 1)⟩
    have hb1 := chunkKey_ge rest (idx + 1) b hb
    simp only [chunkKey, parseIndex_repr, Option.getD_some] at hb1 ⊢
    omega

theorem sortEntries_chunkEntries (chunks : List (List Nat)) :
    sortEntries (dirFiles (chunkEntries chunks 0)) =
      dirFiles (chunkEntries chunks 0) :=
  List.Sorted.insertionSort_eq (sorted_chunkEntries chunks 0)

theorem map_snd_chunkEntries (chunks : List (List Nat)) (idx : Nat) :
    (dirFiles (chunkEntries chunks idx)).map Prod.snd = chunks := by
  induction chunks generalizing idx with
  | nil => rfl
  | cons ch rest ih =>
    rw [dirFiles_chunkEntries_cons, List.map_cons, ih (idx + 1)]

theorem all_parse_chunkEntries (chunks : List (List Nat)) (idx : Nat) :
    (dirFiles (chunkEntries chunks idx)).all
      (fun e => (parseIndex e.1).isSome) = true := by
  induction chunks generalizing idx with
  | nil => rfl
  | cons ch rest ih =>
    rw [dirFiles_chunkEntries_cons, List.all_cons, ih (idx + 1)]
    simp [parseIndex_repr]

theorem findEntry_chunkEntries_mem (chunks : List (List Nat)) (idx j : Nat)
    (h1 : idx ≤ j) (h2 : j < idx + chunks.length) :
    findEntry (chunkEntries chunks idx) (Nat.repr j) =
      some (FsEntry.file (chunks.getD (j - idx) [])) := by
  induction chunks generalizing idx with
  | nil => simp at h2; omega
  | cons ch rest ih =>
    by_cases hj : j = idx
    · subst hj
      unfold chunkEntries findEntry
      rw [List.find?_cons_of_pos _ (by simp)]
      simp
    · have hne : (Nat.repr idx = Nat.repr j) = False := by
        simp only [eq_iff_iff, iff_false]
        intro he
        exact hj (repr_injective he).symm
      unfold chunkEntries findEntry
      rw [List.find?_cons_of_neg _ (by simp [hne])]
      rw [show ((List.find? (fun e => decide (e.1 = Nat.repr j))
          (chunkEntries rest (idx + 1))).map fun e => e.2)
          = findEntry (chunkEntries rest (idx + 1)) (Nat.repr j) from rfl]
      rw [ih (idx + 1) (by omega) (by simp at h2 ⊢; omega)]
      congr 2
      have : j - idx = (j - (idx + 1)) + 1 := by omega
      rw [this]
      rfl

theorem findEntry_chunkEntries_out (chunks : List (List Nat)) (idx j : Nat)
    (h : j < idx ∨ idx + chunks.length ≤ j) :
    findEntry (chunkEntries chunks idx) (Nat.repr j) = none := by
  induction chunks generalizing idx with
  | nil => rfl
  | cons ch rest ih =>
    have hj : j ≠ idx := by
      rcases h with h | h
      · omega
      · simp at h; omega
    have hne : (Nat.repr idx = Nat.repr j) = False := by
      simp only [eq_iff_iff, iff_false]
      intro he
      exact hj (repr_injective he).symm
    unfold chunkEntries findEntry
    rw [List.find?_cons_of_neg _ (by simp [hne])]
    rw [show ((List.find? (fun e => decide (e.1 = Nat.repr j))
        (chunkEntries rest (idx + 1))).map fun e => e.2)
        = findEntry (chunkEntries rest (idx + 1)) (Nat.repr j) from rfl]
    apply ih (idx + 1)
    rcases h with h | h
    · left; omega
    · right; simp at h ⊢; omega

/-! ### Removing a chunk file -/

theorem findEntry_removeFile_self (d : Dir) (name : String) :
    findEntry (removeFile d name) name = none := by
  induction d with
  | nil => rfl
  | cons e d ih =>
    by_cases h : e.1 = name
    · unfold removeFile at ih ⊢
      rw [List.filter_cons, if_neg (by simp [h])]
      exact ih
    · unfold removeFile at ih ⊢
      rw [List.filter_cons, if_pos (by simp [h])]
      unfold findEntry
      rw [List.find?_cons_of_neg _ (by simp [h])]
      exact ih

theorem findEntry_removeFile_ne (d : Dir) (name q : String) (h : q ≠ name) :
    findEntry (removeFile d name) q = findEntry d q := by
  induction d with
  | nil => rfl
  | cons e d ih =>
    by_cases h1 : e.1 = name
    · unfold removeFile at ih ⊢
      rw [List.filter_cons, if_neg (by simp [h1])]
      rw [ih]
      unfold findEntry
      rw [List.find?_cons_of_neg _ ?_]
      simp only [h1, decide_eq_true_eq]
      exact fun he => h he.symm
    · unfold removeFile at ih ⊢
      rw [List.filter_cons, if_pos (by simp [h1])]
      by_cases h2 : e.1 = q
      · unfold findEntry
        rw [List.find?_cons_of_pos _ (by simp [h2]), List.find?_cons_of_pos _ (by simp [h2])]
      · unfold findEntry
        rw [List.find?_cons_of_neg _ (by simp [h2]), List.find?_cons_of_neg _ (by simp [h2])]
        exact ih

/-- A filter of `range N` whose predicate holds exactly at `j < N` keeps
exactly `[j]`. -/
theorem range_filter_singleton (N j : Nat) (p : Nat → Bool) (hj : j < N)
    (hp : ∀ i, i < N → (p i = true ↔ i = j)) :
    (List.range N).filter p = [j] := by
  induction N with
  | zero => omega
  | succ N ih =>
    rw [List.range_succ, List.filter_append]
    by_cases hjN : j = N
    · subst hjN
      have h1 : (List.range j).filter p = [] := by
        rw [List.filter_eq_nil_iff]
        intro a ha
        rw [List.mem_range] at ha
        intro hpa
        exact absurd ((hp a (by omega)).mp hpa) (by omega)
      have h2 : List.filter p [j] = [j] := by
        rw [List.filter_cons, if_pos ((hp j (by omega)).mpr rfl)]
        rfl
      rw [h1, h2]
      rfl
    · have h2 : List.filter p [N] = [] := by
        rw [List.filter_cons, if_neg ?_]
        · rfl
        · intro hpa
          exact hjN (((hp N (by omega)).mp hpa).symm ▸ rfl)
      rw [ih (by omega) (fun i hi => hp i (by omega)), h2, List.append_nil]

/-! ### The claims -/

/-- C1.  For every non-empty input file and every chunk size of at least
1 byte (smaller than, equal to, or greater than the file size), running
Split and then Merge on Split's output directory produces an output file
whose byte content equals the original input byte-for-byte (and Merge
returns `Ok(true)`). -/
theorem split_merge_roundTrip (content : List Nat) (chunkSize : Nat)
    (pre : Option FsEntry) (hc : content ≠ []) (hk : 1 ≤ chunkSize) :
    Merge.run pre true (Split.run chunkSize content).2 =
      ⟨MergeOutcome.ok true, some content⟩ := by
  have hk0 : chunkSize ≠ 0 := by omega
  have hflat := splitChunks_flatten chunkSize content hk0
  have hchunks : splitChunks chunkSize content ≠ [] := by
    intro h0
    rw [h0] at hflat
    exact hc hflat.symm
  have hE : dirFiles (chunkEntries (splitChunks chunkSize content) 0) ≠ [] := by
    obtain ⟨ch, rest, hs⟩ := List.exists_cons_of_ne_nil hchunks
    rw [hs, dirFiles_chunkEntries_cons]
    simp
  show Merge.run pre true (chunkEntries (splitChunks chunkSize content) 0) = _
  unfold Merge.run
  rw [if_neg (by simp), if_neg hE, if_pos (all_parse_chunkEntries _ 0)]
  rw [sortEntries_chunkEntries, map_snd_chunkEntries, hflat]

/-- C1 witness: a 3-byte file, chunk size 2. -/
theorem split_merge_roundTrip_witness :
    ([1, 2, 3] : List Nat) ≠ [] ∧ 1 ≤ 2 ∧
      Merge.run none true (Split.run 2 [1, 2, 3]).2 =
        ⟨MergeOutcome.ok true, some [1, 2, 3]⟩ :=
  ⟨by decide, by decide, split_merge_roundTrip [1, 2, 3] 2 none (by decide) (by decide)⟩

/-- C3.  For every successful Split invocation with chunk size at least 1:
a non-empty input yields `total_chunks = ⌈file_size / chunk_size⌉`; an
empty input yields `total_chunks = 0` and an output directory with no
chunk file. -/
theorem split_total_chunks_law (chunkSize : Nat) (content : List Nat)
    (hk : 1 ≤ chunkSize) :
    (content ≠ [] →
      (Split.run chunkSize content).1.total_chunks = content.length ⌈/⌉ chunkSize) ∧
    (content = [] →
      (Split.run chunkSize content).1.total_chunks = 0 ∧
        (Split.run chunkSize content).2 = []) := by
  constructor
  · intro hc
    obtain ⟨hlo, hhi⟩ := splitChunks_length_bounds chunkSize content (by omega) hc
    have hne : (splitChunks chunkSize content).length ≠ 0 := by
      intro h0
      rw [h0] at hhi
      simp at hhi
      exact hc hhi
    show (splitChunks chunkSize content).length = _
    have hkpos : 0 < chunkSize := by omega
    have hle : content.length ⌈/⌉ chunkSize ≤ (splitChunks chunkSize content).length :=
      (ceilDiv_le_iff_le_mul hkpos).mpr (by rw [Nat.mul_comm]; exact hhi)
    have hge : (splitChunks chunkSize content).length ≤ content.length ⌈/⌉ chunkSize := by
      by_contra hlt
      push_neg at hlt
      have h1 : content.length ⌈/⌉ chunkSize ≤ (splitChunks chunkSize content).length - 1 := by
        omega
      have h2 : content.length ≤ chunkSize * ((splitChunks chunkSize content).length - 1) := by
        have := (ceilDiv_le_iff_le_mul (b := content.length) hkpos
          (c := (splitChunks chunkSize content).length - 1))
        exact this.mp h1
      rw [Nat.mul_comm] at h2
      omega
    omega
  · intro hc
    subst hc
    constructor
    · show (splitChunks chunkSize []).length = 0
      rw [splitChunks_nil]
      rfl
    · show chunkEntries (splitChunks chunkSize []) 0 = []
      rw [splitChunks_nil]
      rfl

/-- C3 witness: 5 bytes at chunk size 2 give ⌈5/2⌉ = 3 chunks; the empty
file gives 0 chunks and no chunk files. -/
theorem split_total_chunks_law_witness :
    1 ≤ 2 ∧
      (([1, 2, 3, 4, 5] : List Nat) ≠ [] →
        (Split.run 2 [1, 2, 3, 4, 5]).1.total_chunks = ([1, 2, 3, 4, 5] : List Nat).length ⌈/⌉ 2) ∧
      (([] : List Nat) = [] →
        (Split.run 2 ([] : List Nat)).1.total_chunks = 0 ∧ (Split.run 2 ([] : List Nat)).2 = []) :=
  ⟨by decide, (split_total_chunks_law 2 [1, 2, 3, 4, 5] (by decide)).1,
    (split_total_chunks_law 2 [] (by decide)).2⟩

/-- C5.  For every successful Split on a non-empty file with chunk size
`≥ 1` and `n = total_chunks`: every chunk file with index `i < n - 1` is
exactly `chunk_size` bytes long, and the last chunk file (index `n - 1`)
is `file_size - chunk_size * (n - 1)` bytes long, a value in
`[1, chunk_size]`.  The last-chunk clause holds for every such split,
including the single-chunk case `n = 1` (chunk size ≥ file size). -/
theorem split_chunk_sizes (chunkSize : Nat) (content : List Nat) (i : Nat)
    (hk : 1 ≤ chunkSize) (hc : content ≠ []) :
    (i + 1 < (Split.run chunkSize content).1.total_chunks →
      chunkSizeAt (Split.run chunkSize content).2 i = chunkSize) ∧
      chunkSizeAt (Split.run chunkSize content).2
          ((Split.run chunkSize content).1.total_chunks - 1) =
        content.length - chunkSize * ((Split.run chunkSize content).1.total_chunks - 1) ∧
      1 ≤ content.length
          - chunkSize * ((Split.run chunkSize content).1.total_chunks - 1) ∧
      content.length - chunkSize * ((Split.run chunkSize content).1.total_chunks - 1)
        ≤ chunkSize := by
  have hk0 : chunkSize ≠ 0 := by omega
  obtain ⟨hlo, hhi⟩ := splitChunks_length_bounds chunkSize content hk0 hc
  have hn : (Split.run chunkSize content).1.total_chunks
      = (splitChunks chunkSize content).length := rfl
  set n := (splitChunks chunkSize content).length with hdefn
  have hD : (Split.run chunkSize content).2
      = chunkEntries (splitChunks chunkSize content) 0 := rfl
  have hsizeAt : ∀ j, j < n →
      chunkSizeAt (Split.run chunkSize content).2 j
        = ((content.drop (j * chunkSize)).take chunkSize).length := by
    intro j hj
    unfold chunkSizeAt
    rw [hD, findEntry_chunkEntries_mem (splitChunks chunkSize content) 0 j
      (by omega) (by omega)]
    rw [Nat.sub_zero, splitChunks_getD]
  rw [hn]
  have hn1 : n ≠ 0 := by
    intro h0
    rw [h0] at hhi
    simp at hhi
    exact hc hhi
  constructor
  · intro hi
    rw [hsizeAt i (by omega)]
    have hmono : (i + 1) * chunkSize ≤ (n - 1) * chunkSize :=
      Nat.mul_le_mul_right chunkSize (by omega)
    have he : (i + 1) * chunkSize = i * chunkSize + chunkSize := by ring
    rw [List.length_take, List.length_drop]
    omega
  · rw [hsizeAt (n - 1) (by omega)]
    have hkle : chunkSize ≤ n * chunkSize := Nat.le_mul_of_pos_left chunkSize (by omega)
    have he2 : n * chunkSize = (n - 1) * chunkSize + chunkSize := by
      rw [Nat.sub_one_mul]
      omega
    rw [List.length_take, List.length_drop]
    have hcomm : chunkSize * (n - 1) = (n - 1) * chunkSize := Nat.mul_comm ..
    omega

/-- C5 witness, at two inputs: 5 bytes at chunk size 2 (chunk 0 is full,
the last chunk holds 5 - 2*2 = 1 byte, within [1, 2]), and the
single-chunk split of 3 bytes at chunk size 5 (the last chunk is chunk 0
itself, holding 3 - 5*0 = 3 bytes, within [1, 5]). -/
theorem split_chunk_sizes_witness :
    (1 ≤ 2 ∧ ([1, 2, 3, 4, 5] : List Nat) ≠ [] ∧
      ((0 + 1 < (Split.run 2 [1, 2, 3, 4, 5]).1.total_chunks →
          chunkSizeAt (Split.run 2 [1, 2, 3, 4, 5]).2 0 = 2) ∧
        chunkSizeAt (Split.run 2 [1, 2, 3, 4, 5]).2
            ((Split.run 2 [1, 2, 3, 4, 5]).1.total_chunks - 1) =
          ([1, 2, 3, 4, 5] : List Nat).length
            - 2 * ((Split.run 2 [1, 2, 3, 4, 5]).1.total_chunks - 1) ∧
        1 ≤ ([1, 2, 3, 4, 5] : List Nat).length
            - 2 * ((Split.run 2 [1, 2, 3, 4, 5]).1.total_chunks - 1) ∧
        ([1, 2, 3, 4, 5] : List Nat).length
            - 2 * ((Split.run 2 [1, 2, 3, 4, 5]).1.total_chunks - 1) ≤ 2)) ∧
    (1 ≤ 5 ∧ ([1, 2, 3] : List Nat) ≠ [] ∧
      ((0 + 1 < (Split.run 5 [1, 2, 3]).1.total_chunks →
          chunkSizeAt (Split.run 5 [1, 2, 3]).2 0 = 5) ∧
        chunkSizeAt (Split.run 5 [1, 2, 3]).2
            ((Split.run 5 [1, 2, 3]).1.total_chunks - 1) =
          ([1, 2, 3] : List Nat).length
            - 5 * ((Split.run 5 [1, 2, 3]).1.total_chunks - 1) ∧
        1 ≤ ([1, 2, 3] : List Nat).length
            - 5 * ((Split.run 5 [1, 2, 3]).1.total_chunks - 1) ∧
        ([1, 2, 3] : List Nat).length
            - 5 * ((Split.run 5 [1, 2, 3]).1.total_chunks - 1) ≤ 5)) :=
  ⟨⟨by decide, by decide, split_chunk_sizes 2 [1, 2, 3, 4, 5] 0 (by decide) (by decide)⟩,
    ⟨by decide, by decide, split_chunk_sizes 5 [1, 2, 3] 0 (by decide) (by decide)⟩⟩

/-- C2 counterexample.  The claim says a size-mismatch result carries the
expected and actual totals as values readable by the caller.  It does
not: `CheckResultError` has only `error_type`, a fixed `message` and
`missing = none` on this path, so two runs with different
expected/actual pairs — (5, 1) on a 1-byte chunk vs (7, 2) on a 2-byte
chunk — return *identical* results, hence no function of the result can
recover the pair. -/
theorem check_size_payload_cex :
    Check.run ⟨some [("0", FsEntry.file [0])], some 5, some 1⟩ =
        Check.run ⟨some [("0", FsEntry.file [0, 0])], some 7, some 1⟩ ∧
      Check.run ⟨some [("0", FsEntry.file [0])], some 5, some 1⟩ =
        Except.ok ⟨false, some ⟨CheckResultErrorType.Size,
          "the size of chunks is not equal to file_size parameter", none⟩⟩ ∧
      ¬ ∃ f : Except CheckError CheckResult → Nat × Nat,
          f (Check.run ⟨some [("0", FsEntry.file [0])], some 5, some 1⟩) = (5, 1) ∧
          f (Check.run ⟨some [("0", FsEntry.file [0, 0])], some 7, some 1⟩) = (7, 2) := by
  refine ⟨rfl, rfl, ?_⟩
  rintro ⟨f, h1, h2⟩
  rw [show Check.run ⟨some [("0", FsEntry.file [0])], some 5, some 1⟩
    = Check.run ⟨some [("0", FsEntry.file [0, 0])], some 7, some 1⟩ from rfl] at h1
  rw [h1] at h2
  simp at h2

/-- C2 amended.  Whenever Check runs to completion with all expected
chunks present but the summed chunk length differing from the expected
file size, the result is the size-mismatch outcome (`error_type` `Size`);
it carries only the fixed message and an empty `missing` field — the
expected and actual totals are not part of the result. -/
theorem check_size_mismatch_outcome (d : Dir) (fs N : Nat)
    (hnomiss : (scanChunks d N).2 = []) (hsz : (scanChunks d N).1 ≠ fs) :
    Check.run ⟨some d, some fs, some N⟩ =
      Except.ok ⟨false, some ⟨CheckResultErrorType.Size,
        "the size of chunks is not equal to file_size parameter", none⟩⟩ := by
  simp only [Check.run]
  rw [if_neg (by simp [hnomiss]), if_pos hsz]

/-- C2 amended witness: one 1-byte chunk checked against file size 5. -/
theorem check_size_mismatch_outcome_witness :
    (scanChunks [("0", FsEntry.file [0])] 1).2 = [] ∧
      (scanChunks [("0", FsEntry.file [0])] 1).1 ≠ 5 ∧
      Check.run ⟨some [("0", FsEntry.file [0])], some 5, some 1⟩ =
        Except.ok ⟨false, some ⟨CheckResultErrorType.Size,
          "the size of chunks is not equal to file_size parameter", none⟩⟩ :=
  ⟨by decide, by decide,
    check_size_mismatch_outcome [("0", FsEntry.file [0])] 5 1 (by decide) (by decide)⟩

/-- C4.  Whenever the scan finds at least one missing chunk, Check
reports the missing-chunks outcome — never the size-mismatch outcome —
whatever the expected file size is; the result does not depend on
`file_size` at all, so the size comparison can only decide the outcome
when no chunk is missing. -/
theorem check_missing_precedence (d : Dir) (fs N : Nat)
    (hmiss : (scanChunks d N).2 ≠ []) :
    Check.run ⟨some d, some fs, some N⟩ =
      Except.ok ⟨false, some ⟨CheckResultErrorType.Missing, "Missing chunk(s)",
        some (scanChunks d N).2⟩⟩ ∧
    ∀ fs1 fs2 : Nat,
      Check.run ⟨some d, some fs1, some N⟩ = Check.run ⟨some d, some fs2, some N⟩ := by
  constructor
  · simp only [Check.run]
    rw [if_pos hmiss]
  · intro fs1 fs2
    simp only [Check.run]
    rw [if_pos hmiss, if_pos hmiss]

/-- C4 witness: an empty directory checked for 1 chunk of expected size
1: chunk 0 is missing and the present size (0) also mismatches, yet the
outcome is `Missing`. -/
theorem check_missing_precedence_witness :
    (scanChunks [] 1).2 ≠ [] ∧
      Check.run ⟨some [], some 1, some 1⟩ =
        Except.ok ⟨false, some ⟨CheckResultErrorType.Missing, "Missing chunk(s)",
          some (scanChunks [] 1).2⟩⟩ :=
  ⟨by decide, (check_missing_precedence [] 1 1 (by decide)).1⟩

/-- C6.  The missing-chunks outcome carries exactly the indices
`i ∈ [0, N)` with no readable regular file named `i` in the input
directory, in ascending order; and deleting the single chunk file `j`
from an intact Split output yields the missing list `[j]`. -/
theorem check_missing_exact (d : Dir) (fs N : Nat) (content : List Nat)
    (chunkSize j : Nat)
    (hmiss : ((List.range N).filter fun i => ¬ hasChunkFile d i) ≠ [])
    (hc : content ≠ []) (hk : 1 ≤ chunkSize)
    (hj : j < (Split.run chunkSize content).1.total_chunks) :
    (Check.run ⟨some d, some fs, some N⟩ =
        Except.ok ⟨false, some ⟨CheckResultErrorType.Missing, "Missing chunk(s)",
          some ((List.range N).filter fun i => ¬ hasChunkFile d i)⟩⟩ ∧
      ((List.range N).filter fun i => ¬ hasChunkFile d i).Sorted (· < ·)) ∧
    Check.run ⟨some (removeFile (Split.run chunkSize content).2 (Nat.repr j)),
        some content.length, some (Split.run chunkSize content).1.total_chunks⟩ =
      Except.ok ⟨false, some ⟨CheckResultErrorType.Missing, "Missing chunk(s)",
        some [j]⟩⟩ := by
  have hrun : ∀ (d1 : Dir) (fs1 N1 : Nat),
      (((List.range N1).filter fun i => ¬ hasChunkFile d1 i) ≠ []) →
      Check.run ⟨some d1, some fs1, some N1⟩ =
        Except.ok ⟨false, some ⟨CheckResultErrorType.Missing, "Missing chunk(s)",
          some ((List.range N1).filter fun i => ¬ hasChunkFile d1 i)⟩⟩ := by
    intro d1 fs1 N1 hm
    simp only [Check.run, scanChunks_eq]
    rw [if_pos hm]
  refine ⟨⟨hrun d fs N hmiss, ?_⟩, ?_⟩
  · exact List.Pairwise.sublist (List.filter_sublist _) (List.sorted_lt_range N)
  · set D := (Split.run chunkSize content).2 with hD
    set n := (Split.run chunkSize content).1.total_chunks with hn
    have hD2 : D = chunkEntries (splitChunks chunkSize content) 0 := rfl
    have hn2 : n = (splitChunks chunkSize content).length := rfl
    have hfilter : ((List.range n).filter
        fun i => ¬ hasChunkFile (removeFile D (Nat.repr j)) i) = [j] := by
      apply range_filter_singleton n j _ hj
      intro i hi
      by_cases hij : i = j
      · subst hij
        have : findEntry (removeFile D (Nat.repr i)) (Nat.repr i) = none :=
          findEntry_removeFile_self D (Nat.repr i)
        unfold hasChunkFile
        rw [this]
        simp
      · have hner : Nat.repr i ≠ Nat.repr j := fun he => hij (repr_injective he)
        have h1 : findEntry (removeFile D (Nat.repr j)) (Nat.repr i)
            = findEntry D (Nat.repr i) := findEntry_removeFile_ne D (Nat.repr j) _ hner
        have h2 : findEntry D (Nat.repr i)
            = some (FsEntry.file ((splitChunks chunkSize content).getD (i - 0) [])) := by
          rw [hD2]
          exact findEntry_chunkEntries_mem _ 0 i (by omega) (by rw [← hn2]; omega)
        unfold hasChunkFile
        rw [h1, h2]
        simp [hij]
    rw [hrun (removeFile D (Nat.repr j)) content.length n (by rw [hfilter]; simp), hfilter]

/-- C6 witness: splitting 3 bytes at chunk size 1 and deleting chunk
file "1" makes Check report exactly missing `[1]`; the general part is
instantiated on a directory holding only chunk "0" checked against
`N = 2`, whose missing list is `[1]`. -/
theorem check_missing_exact_witness :
    (((List.range 2).filter fun i => ¬ hasChunkFile [("0", FsEntry.file [9])] i) ≠ []) ∧
      ([1, 2, 3] : List Nat) ≠ [] ∧ 1 ≤ 1 ∧
      1 < (Split.run 1 [1, 2, 3]).1.total_chunks ∧
      Check.run ⟨some (removeFile (Split.run 1 [1, 2, 3]).2 (Nat.repr 1)),
          some ([1, 2, 3] : List Nat).length, some (Split.run 1 [1, 2, 3]).1.total_chunks⟩ =
        Except.ok ⟨false, some ⟨CheckResultErrorType.Missing, "Missing chunk(s)",
          some [1]⟩⟩ :=
  ⟨by decide, by decide, by decide,
    by show 1 < (splitChunks 1 [1, 2, 3]).length; simp [splitChunks],
    (check_missing_exact [("0", FsEntry.file [9])] 0 2 [1, 2, 3] 1 1 (by decide)
      (by decide) (by decide)
      (by show 1 < (splitChunks 1 [1, 2, 3]).length; simp [splitChunks])).2⟩

/-- Literal chunk names parse to their numeric values. -/
theorem parseIndex_one : parseIndex "1" = some 1 := rfl

theorem parseIndex_two : parseIndex "2" = some 2 := rfl

theorem parseIndex_ten : parseIndex "10" = some 10 := rfl

/-- C7.  Merging a directory listing files "2", "10", "1" (in that
enumeration order) with contents `b2`, `b10`, `b1` concatenates them in
ascending *numeric* filename order: the output is `b1 ++ b2 ++ b10`, not
the lexicographic order (which would put "10" before "2"). -/
theorem merge_numeric_order (b1 b2 b10 : List Nat) (pre : Option FsEntry) :
    Merge.run pre true
        [("2", FsEntry.file b2), ("10", FsEntry.file b10), ("1", FsEntry.file b1)] =
      ⟨MergeOutcome.ok true, some (b1 ++ b2 ++ b10)⟩ := by
  have h : Merge.run pre true
      [("2", FsEntry.file b2), ("10", FsEntry.file b10), ("1", FsEntry.file b1)]
      = ⟨MergeOutcome.ok true, some (b1 ++ (b2 ++ (b10 ++ [])))⟩ := rfl
  rw [h]
  simp

/-- C8.  Merging an existing directory that contains zero regular files
(non-file entries ignored) fails with the `InDirNoFile` reason, and the
output path holds an empty — not a valid non-empty — file. -/
theorem merge_empty_dir_error (pre : Option FsEntry) (d : Dir)
    (hnf : dirFiles d = []) :
    Merge.run pre true d = ⟨MergeOutcome.error MergeError.InDirNoFile, some []⟩ := by
  unfold Merge.run
  rw [if_neg (by simp), if_pos hnf]

/-- C8 witness: a directory whose only entry is a subdirectory. -/
theorem merge_empty_dir_error_witness :
    dirFiles [("sub", FsEntry.dir)] = [] ∧
      Merge.run none true [("sub", FsEntry.dir)] =
        ⟨MergeOutcome.error MergeError.InDirNoFile, some []⟩ :=
  ⟨by decide, merge_empty_dir_error none [("sub", FsEntry.dir)] (by decide)⟩

/-- C9.  The sort step of Merge never panics when every listed regular
file's name parses as a base-10 non-negative integer; and on a directory
holding files "0" and "a", the unwrap in the sort key is reached and
Merge panics instead of returning a typed error. -/
theorem merge_sort_panic (pre : Option FsEntry) (d : Dir)
    (hall : (dirFiles d).all (fun e => (parseIndex e.1).isSome) = true) :
    (Merge.run pre true d).outcome ≠ MergeOutcome.panicked ∧
      (Merge.run none true
          [("0", FsEntry.file []), ("a", FsEntry.file [1])]).outcome
        = MergeOutcome.panicked := by
  constructor
  · by_cases h : dirFiles d = [] <;> simp [Merge.run, h, hall]
  · decide

/-- C9 witness: a directory with the well-named chunk files "1", "0". -/
theorem merge_sort_panic_witness :
    (dirFiles [("1", FsEntry.file [2]), ("0", FsEntry.file [3])]).all
        (fun e => (parseIndex e.1).isSome) = true ∧
      (Merge.run none true
          [("1", FsEntry.file [2]), ("0", FsEntry.file [3])]).outcome
        ≠ MergeOutcome.panicked :=
  ⟨by decide,
    (merge_sort_panic none [("1", FsEntry.file [2]), ("0", FsEntry.file [3])] (by decide)).1⟩

/-- C10.  Merge truncates the output path before reading the input
listing: whenever it returns the `InDirNotRead` or the `InDirNoFile`
error, whatever entry previously occupied the output path is gone and an
empty output file sits there. -/
theorem merge_error_truncates_output (pre : Option FsEntry) (d dnf : Dir)
    (hnf : dirFiles dnf = []) :
    Merge.run pre false d = ⟨MergeOutcome.error MergeError.InDirNotRead, some []⟩ ∧
      Merge.run pre true dnf = ⟨MergeOutcome.error MergeError.InDirNoFile, some []⟩ := by
  constructor
  · rfl
  · unfold Merge.run
    rw [if_neg (by simp), if_pos hnf]

/-- C10 witness: the output path previously held a 2-byte file; after
either failing run it holds an empty file. -/
theorem merge_error_truncates_output_witness :
    dirFiles [("x", FsEntry.dir)] = [] ∧
      Merge.run (some (FsEntry.file [7, 7])) false [("0", FsEntry.file [1])] =
        ⟨MergeOutcome.error MergeError.InDirNotRead, some []⟩ ∧
      Merge.run (some (FsEntry.file [7, 7])) true [("x", FsEntry.dir)] =
        ⟨MergeOutcome.error MergeError.InDirNoFile, some []⟩ :=
  ⟨by decide,
    (merge_error_truncates_output (some (FsEntry.file [7, 7]))
      [("0", FsEntry.file [1])] [("x", FsEntry.dir)] (by decide)).1,
    (merge_error_truncates_output (some (FsEntry.file [7, 7]))
      [("0", FsEntry.file [1])] [("x", FsEntry.dir)] (by decide)).2⟩

end Fusion
